import Mathlib

/-!
# Verification of `dgl/transform.py` graph transformation utilities

A shallow embedding of the graph transformation module of the DGL library.
A homogeneous `DGLGraph` is a node count together with an ordered edge list
(edge IDs are positions in that list); a `HeteroGraph` additionally carries
node/edge types and per-type feature tables.  Each Python transform is
translated into a Lean function over these structures, and the specified
properties are proved about the translations.
-/

namespace DGL

/-- A homogeneous (possibly multi-)graph: a node count and an ordered list of
`(src, dst)` edges.  Edge IDs are positions in `edges`, matching the
`order="eid"` edge enumeration of the Python code. -/
structure DGLGraph where
  numNodes : ℕ
  edges : List (ℕ × ℕ)
  deriving Repr, DecidableEq

/-- `transform.reverse` (src lines 307-318): a fresh graph with the same node
count whose edge list is the input's edge list (in edge-ID order) with each
`(u, v)` replaced by `(v, u)`. -/
def reverse (g : DGLGraph) : DGLGraph :=
  { numNodes := g.numNodes
  , edges := g.edges.map (fun e => (e.2, e.1)) }

/-- `transform.add_self_loop` (src lines 472-505): a fresh graph with the same
node count; first the edges with `src != dst` are added in their original
edge-ID order, then one self-loop per node `0..n-1` is appended. -/
def add_self_loop (g : DGLGraph) : DGLGraph :=
  { numNodes := g.numNodes
  , edges := g.edges.filter (fun e => e.1 ≠ e.2)
      ++ (List.range g.numNodes).map (fun i => (i, i)) }

/-- `transform.remove_self_loop` (src lines 507-535): a fresh graph with the
same node count keeping exactly the edges with `src != dst`, in their original
edge-ID order. -/
def remove_self_loop (g : DGLGraph) : DGLGraph :=
  { numNodes := g.numNodes
  , edges := g.edges.filter (fun e => e.1 ≠ e.2) }

/-- Modelled from the spec: `DGLGraph.adjacency_matrix_scipy(return_edge_ids=False)`
(implemented outside this module) returns the adjacency matrix with a row per
destination and a column per source: entry `(i, j)` is the multiplicity of the
edge `j → i`. -/
def adjacency_matrix (g : DGLGraph) : Matrix (Fin g.numNodes) (Fin g.numNodes) ℕ :=
  fun i j => g.edges.count ((j : ℕ), (i : ℕ))

/-- `transform.khop_adj` (src lines 159-196): the `k`-th matrix power of the
adjacency matrix (`**` on a scipy sparse matrix is the matrix power; the
final cast of the integer entries to a dense float tensor is representation
only and is not modelled). -/
def khop_adj (g : DGLGraph) (k : ℕ) : Matrix (Fin g.numNodes) (Fin g.numNodes) ℕ :=
  (adjacency_matrix g) ^ k

/-- `transform.khop_graph` (src lines 198-239): a graph with the same node
count whose edge list expands `A^k`.  Modelled from the spec for the
construction `from_coo` (implemented outside this module): each entry of
`A^k` at (row = dst, col = src) with multiplicity `m` is emitted as `m`
parallel edges (src, dst) of the new graph, entries in the row-major order of
the COO conversion. -/
def khop_graph (g : DGLGraph) (k : ℕ) : DGLGraph :=
  { numNodes := g.numNodes
  , edges := (List.finRange g.numNodes).flatMap (fun r =>
      (List.finRange g.numNodes).flatMap (fun c =>
        List.replicate (khop_adj g k r c) ((c : ℕ), (r : ℕ)))) }

/-- Number of directed walks of length `k` from `u` to `v` in `g`, counted
with edge multiplicity (a walk of length `k + 1` is an edge `u → w` followed
by a walk of length `k` from `w` to `v`). -/
def numWalks (g : DGLGraph) : ℕ → ℕ → ℕ → ℕ
  | 0, u, v => if u = v then 1 else 0
  | k + 1, u, v =>
      ((List.range g.numNodes).map
        (fun w => g.edges.count (u, w) * numWalks g k w v)).sum

/-- The 5-node bidirectional cycle of the `khop_graph` docstring example. -/
def bicycle5 : DGLGraph :=
  ⟨5, [(0, 1), (1, 2), (2, 3), (3, 4), (4, 0), (0, 4), (1, 0), (2, 1), (3, 2), (4, 3)]⟩

/-- A canonical edge type: (source node type, relation name, destination node
type). -/
structure CanonicalEtype where
  srctype : String
  rel : String
  dsttype : String
  deriving Repr, DecidableEq

/-- A feature table (`.data` of a node/edge view): an association list from
feature key to an integer array. -/
abbrev Frame := List (String × List ℕ)

/-- A heterogeneous multigraph: node types with their node counts, canonical
edge types with their `(src, dst)` edge lists (edge IDs are positions), and
per-type node/edge feature tables.  The lists `numNodesPerType`/`ndataPerType`
are parallel to `ntypes`, and `edgesPerType`/`edataPerType` to `etypes`. -/
structure HeteroGraph where
  ntypes : List String
  numNodesPerType : List ℕ
  etypes : List CanonicalEtype
  edgesPerType : List (List (ℕ × ℕ))
  ndataPerType : List Frame
  edataPerType : List Frame
  deriving Repr, DecidableEq

/-- The Python exceptions the module can actually raise.  Note that the
module cannot raise `DGLError`: that name is never imported in
`transform.py`, so the two `raise DGLError(...)` statements themselves fail
with `NameError` when reached. -/
inductive PyError where
  | nameError (msg : String)
  | typeError (msg : String)
  | valueError (msg : String)
  | indexError (msg : String)
  deriving Repr, DecidableEq

/-- `frame[key] = val`: replace the value under `key` if present, else append
the binding. -/
def setFeat (key : String) (val : List ℕ) : Frame → Frame
  | [] => [(key, val)]
  | kv :: rest => if kv.1 = key then (key, val) :: rest else kv :: setFeat key val rest

/-- `frame.get(key)`: look up a feature key. -/
def getFeat (key : String) : Frame → Option (List ℕ)
  | [] => none
  | kv :: rest => if kv.1 = key then some kv.2 else getFeat key rest

/-- `dgl.base.NID` / `dgl.base.EID`: the well-known induced-ID feature key. -/
def inducedIdKey : String := "_ID"

/-! ### `to_simple` (src lines 786-848) -/

/-- Strict lexicographic order on `(src, dst)` edge pairs. -/
def edgeLt (a b : ℕ × ℕ) : Bool := a.1 < b.1 || (a.1 = b.1 && a.2 < b.2)

/-- Insert an edge into a sorted duplicate-free edge list, keeping it sorted
and duplicate-free. -/
def insEdge (a : ℕ × ℕ) : List (ℕ × ℕ) → List (ℕ × ℕ)
  | [] => [a]
  | b :: l => if edgeLt a b then a :: b :: l else if a = b then b :: l else b :: insEdge a l

/-- The distinct `(src, dst)` pairs of an edge list, in sorted order. -/
def sortedUniqueEdges (es : List (ℕ × ℕ)) : List (ℕ × ℕ) := es.foldr insEdge []

/-- Modelled from the spec: the per-edge-type core of `_CAPI_DGLToSimpleHetero`
(implemented outside this module).  Per the spec's concrete scenario and the
docstring example, the coalesced graph lists each distinct `(src, dst)` pair
once in sorted order; `counts` records how many original edges coalesced into
each new edge; `emap` sends each original edge ID to the new edge ID of its
`(src, dst)` pair. -/
def toSimpleEdges (es : List (ℕ × ℕ)) : List (ℕ × ℕ) × List ℕ × List ℕ :=
  let uniq := sortedUniqueEdges es
  (uniq, uniq.map (fun u => es.count u), es.map (fun e => uniq.indexOf e))

/-- `transform.to_simple` (src lines 786-848), in state-passing form: the
first component is the returned simple graph and the second is the input
graph after the call (the only mutation the source performs on the input is
the writeback of the old-edge-to-new-edge map).  The new graph keeps types
and node counts, carries the coalesced edge lists, no node features, and —
when `return_counts` is given — the per-new-edge duplicate counts under that
key.  When `writeback_mapping` is given, the per-original-edge map is written
into the input graph's edge frame of each canonical edge type under that
key. -/
def to_simple (g : HeteroGraph) (return_counts : Option String)
    (writeback_mapping : Option String) : HeteroGraph × HeteroGraph :=
  let results := g.edgesPerType.map toSimpleEdges
  let simple_graph : HeteroGraph :=
    { ntypes := g.ntypes
    , numNodesPerType := g.numNodesPerType
    , etypes := g.etypes
    , edgesPerType := results.map (fun r => r.1)
    , ndataPerType := g.ntypes.map (fun _ => ([] : Frame))
    , edataPerType :=
        match return_counts with
        | none => results.map (fun _ => ([] : Frame))
        | some key => results.map (fun r => setFeat key r.2.1 []) }
  let g' :=
    match writeback_mapping with
    | none => g
    | some key =>
        { g with edataPerType :=
            (g.edataPerType.zip results).map (fun p => setFeat key p.2.2.2 p.1) }
  (simple_graph, g')

/-! ### `in_subgraph` / `out_subgraph` (src lines 708-784) -/

/-- The node-ID selection argument of the subgraph routines: either a bare
tensor of node IDs or a dictionary keyed by node type. -/
inductive NodesArg where
  | tensor (ids : List ℕ)
  | dict (m : List (String × List ℕ))
  deriving Repr, DecidableEq

/-- The per-node-type selection the source builds: the dictionary entry when
present, else an empty ID array (`nd.array([])`). -/
def nodesForNtype (m : List (String × List ℕ)) (nt : String) : List ℕ :=
  match m.find? (fun kv => kv.1 = nt) with
  | some kv => kv.2
  | none => []

/-- Modelled from the spec: `_CAPI_DGLInSubgraph` / `_CAPI_DGLOutSubgraph`
(implemented outside this module).  Keep, per canonical edge type, exactly the
edges whose destination (`useDst = true`) or source (`useDst = false`) lies in
the selected set of the matching node type; node types, node counts and edge
types are preserved; the original IDs of the kept edges are attached under
the `EID` feature of the result. -/
def subgraph_core (g : HeteroGraph) (m : List (String × List ℕ)) (useDst : Bool) :
    HeteroGraph :=
  let keep := fun (et : CanonicalEtype) (e : ℕ × ℕ) =>
    if useDst then (nodesForNtype m et.dsttype).contains e.2
    else (nodesForNtype m et.srctype).contains e.1
  let kept := (g.etypes.zip g.edgesPerType).map
    (fun p => p.2.enum.filter (fun ie => keep p.1 ie.2))
  { ntypes := g.ntypes
  , numNodesPerType := g.numNodesPerType
  , etypes := g.etypes
  , edgesPerType := kept.map (fun l => l.map (fun ie => ie.2))
  , ndataPerType := g.ntypes.map (fun _ => ([] : Frame))
  , edataPerType := kept.map (fun l => setFeat inducedIdKey (l.map (fun ie => ie.1)) []) }

/-- The exception actually raised by `raise DGLError(...)` in this module:
`DGLError` is not among the imports of `transform.py`, so evaluating the name
raises `NameError` instead of constructing the intended exception. -/
def dglErrorNameErr : PyError := .nameError "name DGLError is not defined"

/-- `transform.in_subgraph` (src lines 708-745): a bare tensor on a
multi-type graph reaches `raise DGLError(...)` at line 731, which itself
fails with `NameError` because `DGLError` is never imported; otherwise the
tensor is wrapped into a dictionary keyed by the single node type and the
in-edge subgraph is extracted. -/
def in_subgraph (g : HeteroGraph) (nodes : NodesArg) : Except PyError HeteroGraph :=
  match nodes with
  | .tensor t =>
      if g.ntypes.length > 1 then
        .error dglErrorNameErr
      else
        match g.ntypes with
        | [] => .error (.indexError "list index out of range")
        | nt :: _ => .ok (subgraph_core g [(nt, t)] true)
  | .dict m => .ok (subgraph_core g m true)

/-- `transform.out_subgraph` (src lines 747-784): same validation (and same
`NameError` on the line-770 `raise DGLError(...)`) as `in_subgraph`, keeping
out-edges instead. -/
def out_subgraph (g : HeteroGraph) (nodes : NodesArg) : Except PyError HeteroGraph :=
  match nodes with
  | .tensor t =>
      if g.ntypes.length > 1 then
        .error dglErrorNameErr
      else
        match g.ntypes with
        | [] => .error (.indexError "list index out of range")
        | nt :: _ => .ok (subgraph_core g [(nt, t)] false)
  | .dict m => .ok (subgraph_core g m false)

/-! ### `compact_graphs` (src lines 575-706) -/

/-- The `graphs` argument of `compact_graphs`: a single graph or a list. -/
inductive GraphsArg where
  | single (g : HeteroGraph)
  | list (gs : List HeteroGraph)
  deriving Repr, DecidableEq

/-- The `always_preserve` argument of `compact_graphs`: absent, a bare tensor
of node IDs, or a dictionary keyed by node type. -/
inductive APArg where
  | none
  | tensor (ids : List ℕ)
  | dict (m : List (String × List ℕ))
  deriving Repr, DecidableEq

/-- The exception actually raised when the node-type ordering assertion of
`compact_graphs` (src line 669-671) fails: its message expression
`("... got %s and %s" % ntypes, g.ntypes)` applies `%` to the list `ntypes`
(a list never unpacks into format arguments), so evaluating the message
raises `TypeError` before any `AssertionError` can be constructed. -/
def compactNtypesErr : PyError := .typeError "not enough arguments for format string"

/-- Normalisation of `always_preserve` (src lines 676-681): `None` becomes the
empty dictionary; a bare tensor is rejected when several node types exist,
else it is keyed by the single node type. -/
def apToMap (ntypes : List String) : APArg → Except PyError (List (String × List ℕ))
  | .none => .ok []
  | .dict m => .ok m
  | .tensor t =>
      if ntypes.length > 1 then
        .error (.valueError "Node type must be given if multiple node types exist.")
      else
        match ntypes with
        | [] => .error (.indexError "list index out of range")
        | nt :: _ => .ok [(nt, t)]

/-- Node `u` of type `nt` has nonzero in-degree or out-degree in at least one
of the graphs. -/
def nonIsolated (gs : List HeteroGraph) (nt : String) (u : ℕ) : Bool :=
  gs.any (fun g => (g.etypes.zip g.edgesPerType).any (fun p =>
    (p.1.srctype = nt && p.2.any (fun e => e.1 = u)) ||
    (p.1.dsttype = nt && p.2.any (fun e => e.2 = u))))

/-- Modelled from the spec: the core of `_CAPI_DGLCompactGraphs` (implemented
outside this module), per spec 4.7.  For each node type, the nodes that are
non-isolated in some input graph or always preserved — in increasing original
ID order — become the new node-ID space shared by all outputs; each graph is
re-expressed over it, and the new-to-old mapping is attached as the `NID`
feature of every output. -/
def compact_core (gs : List HeteroGraph) (apm : List (String × List ℕ)) :
    List HeteroGraph :=
  match gs with
  | [] => []
  | g0 :: _ =>
    let inducedPer : List (String × List ℕ) :=
      (g0.ntypes.zip g0.numNodesPerType).map (fun p =>
        (p.1, (List.range p.2).filter
          (fun u => nonIsolated gs p.1 u || (nodesForNtype apm p.1).contains u)))
    gs.map (fun g =>
      { ntypes := g.ntypes
      , numNodesPerType := g.ntypes.map (fun nt => (nodesForNtype inducedPer nt).length)
      , etypes := g.etypes
      , edgesPerType := (g.etypes.zip g.edgesPerType).map (fun p =>
          p.2.map (fun e => ((nodesForNtype inducedPer p.1.srctype).indexOf e.1,
                             (nodesForNtype inducedPer p.1.dsttype).indexOf e.2)))
      , ndataPerType := g.ntypes.map (fun nt =>
          setFeat inducedIdKey (nodesForNtype inducedPer nt) [])
      , edataPerType := g.etypes.map (fun _ => ([] : Frame)) })

/-- The body of `compact_graphs` after the argument has been normalised to a
non-empty list `g0 :: rest` (with `return_single` recording whether the caller
passed a bare graph): the node-type ordering assertion over all graphs — whose
failure raises the `TypeError` of `compactNtypesErr`, because evaluating the
assertion's malformed message expression fails before an `AssertionError`
exists — then the `always_preserve` normalisation, then compaction.  The
second component is the state of the input graphs after the call — the source
never writes to them (`NID` goes onto the newly constructed graphs only). -/
def compact_run (g0 : HeteroGraph) (rest : List HeteroGraph) (return_single : Bool)
    (ap : APArg) : Except PyError GraphsArg × List HeteroGraph :=
  let gs := g0 :: rest
  if gs.all (fun g => g.ntypes = g0.ntypes) then
    match apToMap g0.ntypes ap with
    | .error e => (.error e, gs)
    | .ok apm =>
        let new_graphs := compact_core gs apm
        if return_single then (.ok (.single (new_graphs.headD g0)), gs)
        else (.ok (.list new_graphs), gs)
  else (.error compactNtypesErr, gs)

/-- `transform.compact_graphs` (src lines 575-706), in state-passing form: the
first component is the returned value (or the exception), the second the state
of the input graphs after the call.  A bare graph is wrapped into a singleton
list and unwrapped on return; an empty list returns the empty list before any
check runs. -/
def compact_graphs (graphs : GraphsArg) (always_preserve : APArg) :
    Except PyError GraphsArg × List HeteroGraph :=
  match graphs with
  | .single g => compact_run g [] true always_preserve
  | .list [] => (.ok (.list []), [])
  | .list (g0 :: rest) => compact_run g0 rest false always_preserve

/-- The homogeneous multigraph of the `to_simple` docstring example:
`dgl.graph([(0, 1), (1, 3), (2, 2), (1, 3), (1, 4), (1, 4)])`. -/
def multi6 : HeteroGraph :=
  { ntypes := ["_N"]
  , numNodesPerType := [5]
  , etypes := [⟨"_N", "_E", "_N"⟩]
  , edgesPerType := [[(0, 1), (1, 3), (2, 2), (1, 3), (1, 4), (1, 4)]]
  , ndataPerType := [[]]
  , edataPerType := [[]] }

/-- The bipartite user/game graph of the `compact_graphs` docstring example:
`dgl.bipartite([(1, 3), (3, 5)], 'user', 'plays', 'game', card=(20, 10))`. -/
def userGameG : HeteroGraph :=
  { ntypes := ["user", "game"]
  , numNodesPerType := [20, 10]
  , etypes := [⟨"user", "plays", "game"⟩]
  , edgesPerType := [[(1, 3), (3, 5)]]
  , ndataPerType := [[], []]
  , edataPerType := [[]] }

end DGL

namespace DGL

/-- **C1.** `reverse` keeps the node count, reverses every edge positionally
(edge `(u,v)` at edge-ID `i` becomes `(v,u)` at edge-ID `i`), and applying it
twice restores the original graph edge-ID-for-edge-ID. -/
theorem reverse_spec (g : DGLGraph) :
    (reverse g).numNodes = g.numNodes ∧
    (reverse g).edges.length = g.edges.length ∧
    (∀ i : ℕ, (h : i < g.edges.length) →
      (reverse g).edges.get ⟨i, by simpa [reverse] using h⟩ =
        ((g.edges.get ⟨i, h⟩).2, (g.edges.get ⟨i, h⟩).1)) ∧
    reverse (reverse g) = g := by
  refine ⟨rfl, by simp [reverse], ?_, ?_⟩
  · intro i h
    simp [reverse]
  · cases g with
    | mk n es =>
      simp only [reverse, List.map_map]
      congr 1
      exact List.map_id' es

/-- Witness for C1 at a concrete graph: a 3-cycle. -/
theorem reverse_spec_witness :
    (reverse ⟨3, [(0, 1), (1, 2), (2, 0)]⟩).edges.get ⟨1, by decide⟩ = (2, 1) := by
  have h := (reverse_spec ⟨3, [(0, 1), (1, 2), (2, 0)]⟩).2.2.1 1 (by decide)
  simpa using h

/-- In the list of self-loops appended by `add_self_loop`, node `u` gets
exactly one self-loop when `u < n` and none otherwise. -/
lemma count_selfloop_range (u n : ℕ) :
    ((List.range n).map (fun i => (i, i))).count (u, u) = if u < n then 1 else 0 := by
  induction n with
  | zero => simp
  | succ n ih =>
    rw [List.range_succ, List.map_append, List.count_append, ih]
    rcases lt_trichotomy u n with h | h | h
    · simp [List.count_cons, Prod.ext_iff, h, Nat.lt_succ_of_lt h, Nat.ne_of_lt h]
    · subst h
      simp [List.count_cons, Nat.lt_irrefl, Nat.lt_succ_self]
    · simp [List.count_cons, Prod.ext_iff, Nat.lt_irrefl, Nat.not_lt_of_lt h,
        (Nat.ne_of_lt h).symm, Nat.not_lt.mpr h]

/-- The non-self-loop filter never keeps a self-loop, so a self-loop pair has
count zero in it. -/
lemma count_selfloop_filter (u : ℕ) (es : List (ℕ × ℕ)) :
    (es.filter (fun e => e.1 ≠ e.2)).count (u, u) = 0 := by
  rw [List.count_eq_zero]
  intro hmem
  have h := List.of_mem_filter hmem
  simp at h

/-- **C2.** `add_self_loop` keeps the node count, and its edge sequence is
exactly the non-self-loop edges of `g` in their original edge-ID order
followed by one self-loop per node `0..n-1`; the prefix keeps order (it is a
sublist of the original edge list), keeps every non-self-loop edge with its
multiplicity, contains no self-loop, and the result has exactly one self-loop
per node. -/
theorem add_self_loop_spec (g : DGLGraph) :
    (add_self_loop g).numNodes = g.numNodes ∧
    (add_self_loop g).edges =
      g.edges.filter (fun e => e.1 ≠ e.2) ++ (List.range g.numNodes).map (fun i => (i, i)) ∧
    List.Sublist (g.edges.filter (fun e => e.1 ≠ e.2)) g.edges ∧
    (∀ e, e.1 ≠ e.2 → (g.edges.filter (fun e => e.1 ≠ e.2)).count e = g.edges.count e) ∧
    (∀ e ∈ g.edges.filter (fun e => e.1 ≠ e.2), e.1 ≠ e.2) ∧
    (∀ u, u < g.numNodes → (add_self_loop g).edges.count (u, u) = 1) := by
  refine ⟨rfl, rfl, List.filter_sublist _, ?_, ?_, ?_⟩
  · intro e he
    rw [List.count_filter]
    simpa using he
  · intro e he
    have h := List.of_mem_filter he
    simpa using h
  · intro u hu
    show (g.edges.filter _ ++ _).count (u, u) = 1
    rw [List.count_append, count_selfloop_filter, count_selfloop_range]
    simp [hu]

/-- Witness for C2 at a concrete graph with a pre-existing self-loop. -/
theorem add_self_loop_spec_witness :
    (add_self_loop ⟨3, [(0, 1), (1, 1)]⟩).edges.count (1, 1) = 1 := by
  exact (add_self_loop_spec ⟨3, [(0, 1), (1, 1)]⟩).2.2.2.2.2 1 (by decide)

/-- **C3.** `remove_self_loop` keeps the node count, returns a subsequence of
the original edge list (so the relative order of kept edges is preserved),
keeps no self-loop, keeps every non-self-loop edge with its original
multiplicity, and on a graph without self-loops `remove_self_loop` undoes
`add_self_loop` exactly, edge-ID order included. -/
theorem remove_self_loop_spec (g : DGLGraph) :
    (remove_self_loop g).numNodes = g.numNodes ∧
    List.Sublist (remove_self_loop g).edges g.edges ∧
    (∀ e ∈ (remove_self_loop g).edges, e.1 ≠ e.2) ∧
    (∀ e : ℕ × ℕ, e.1 ≠ e.2 → (remove_self_loop g).edges.count e = g.edges.count e) ∧
    ((∀ e ∈ g.edges, e.1 ≠ e.2) → remove_self_loop (add_self_loop g) = g) := by
  refine ⟨rfl, List.filter_sublist _, ?_, ?_, ?_⟩
  · intro e he
    have h := List.of_mem_filter he
    simpa using h
  · intro e he
    rw [show (remove_self_loop g).edges = g.edges.filter (fun e => e.1 ≠ e.2) from rfl]
    rw [List.count_filter]
    simpa using he
  · intro hns
    have h1 : g.edges.filter (fun e => e.1 ≠ e.2) = g.edges := by
      rw [List.filter_eq_self]
      intro e he
      simpa using hns e he
    have h2 : ((List.range g.numNodes).map (fun i => (i, i))).filter
        (fun e : ℕ × ℕ => e.1 ≠ e.2) = [] := by
      rw [List.filter_eq_nil_iff]
      intro e he
      rcases List.mem_map.mp he with ⟨i, _, rfl⟩
      simp
    cases g with
    | mk n es =>
      simp only [remove_self_loop, add_self_loop, List.filter_append]
      simp only at h1 h2
      rw [List.filter_filter]
      simp only [h2, List.append_nil]
      rw [show ((fun e : ℕ × ℕ => decide (e.1 ≠ e.2) && decide (e.1 ≠ e.2))) =
        (fun e : ℕ × ℕ => decide (e.1 ≠ e.2)) from by funext e; rw [Bool.and_self]]
      rw [h1]

/-- Witness for C3: on a self-loop-free 3-cycle, `add_self_loop` then
`remove_self_loop` is the identity. -/
theorem remove_self_loop_spec_witness :
    remove_self_loop (add_self_loop ⟨3, [(0, 1), (1, 2), (2, 0)]⟩) =
      ⟨3, [(0, 1), (1, 2), (2, 0)]⟩ := by
  exact (remove_self_loop_spec ⟨3, [(0, 1), (1, 2), (2, 0)]⟩).2.2.2.2 (by decide)

/-- **C4.** `khop_adj` is a monoid power of the adjacency matrix: it turns
addition of hop counts into the matrix product, and zero hops into the
identity matrix of size `numNodes`. -/
theorem khop_adj_spec (g : DGLGraph) (k1 k2 : ℕ) :
    khop_adj g (k1 + k2) = khop_adj g k1 * khop_adj g k2 ∧
    khop_adj g 0 = 1 :=
  ⟨pow_add (adjacency_matrix g) k1 k2, pow_zero (adjacency_matrix g)⟩

/-- A sum over `List.range n` is the sum over `Fin n`. -/
lemma list_range_sum_eq_fin_sum (n : ℕ) (f : ℕ → ℕ) :
    ((List.range n).map f).sum = ∑ i : Fin n, f (i : ℕ) := by
  rw [Fin.sum_univ_eq_sum_range]
  induction n with
  | zero => simp
  | succ n ih =>
    rw [List.range_succ, List.map_append, List.sum_append, ih, Finset.sum_range_succ]
    simp

/-- Counting occurrences in a `flatMap` sums the per-block counts. -/
lemma count_flatMap {α β : Type} [BEq β] (l : List α) (f : α → List β) (b : β) :
    (l.flatMap f).count b = (l.map (fun x => (f x).count b)).sum := by
  induction l with
  | nil => simp
  | cons x l ih => simp [List.flatMap_cons, List.count_append, ih]

/-- In the expansion of a matrix `E` into replicated edges `(col, row)`, the
pair `(s, d)` occurs exactly `E d s` times. -/
lemma count_expand_matrix (n : ℕ) (E : Matrix (Fin n) (Fin n) ℕ) (s d : Fin n) :
    ((List.finRange n).flatMap (fun r => (List.finRange n).flatMap (fun c =>
        List.replicate (E r c) ((c : ℕ), (r : ℕ))))).count ((s : ℕ), (d : ℕ)) = E d s := by
  rw [count_flatMap]
  have hinner : ∀ r : Fin n,
      ((List.finRange n).flatMap (fun c =>
        List.replicate (E r c) ((c : ℕ), (r : ℕ)))).count ((s : ℕ), (d : ℕ)) =
      if r = d then E r s else 0 := by
    intro r
    rw [count_flatMap]
    have hmap : ∀ c : Fin n,
        (List.replicate (E r c) ((c : ℕ), (r : ℕ))).count ((s : ℕ), (d : ℕ)) =
        if c = s ∧ r = d then E r c else 0 := by
      intro c
      rw [List.count_replicate]
      by_cases hc : c = s ∧ r = d
      · obtain ⟨rfl, rfl⟩ := hc
        simp
      · have : ¬ (((c : ℕ), (r : ℕ)) == ((s : ℕ), (d : ℕ))) = true := by
          intro hcontra
          apply hc
          have := eq_of_beq hcontra
          rw [Prod.mk.injEq] at this
          exact ⟨Fin.ext this.1, Fin.ext this.2⟩
        simp [this, hc]
    calc ((List.finRange n).map (fun c =>
            (List.replicate (E r c) ((c : ℕ), (r : ℕ))).count ((s : ℕ), (d : ℕ)))).sum
        = ((List.finRange n).map (fun c => if c = s ∧ r = d then E r c else 0)).sum := by
          congr 1
          exact List.map_congr_left (fun c _ => hmap c)
      _ = ∑ c : Fin n, if c = s ∧ r = d then E r c else 0 := by rw [← Fin.sum_univ_def]
      _ = if r = d then E r s else 0 := by
          by_cases hr : r = d
          · simp [hr, Finset.sum_ite_eq']
          · simp [hr]
  calc ((List.finRange n).map (fun r =>
          ((List.finRange n).flatMap (fun c =>
            List.replicate (E r c) ((c : ℕ), (r : ℕ)))).count ((s : ℕ), (d : ℕ)))).sum
      = ((List.finRange n).map (fun r => if r = d then E r s else 0)).sum := by
        congr 1
        exact List.map_congr_left (fun r _ => hinner r)
    _ = ∑ r : Fin n, if r = d then E r s else 0 := by rw [← Fin.sum_univ_def]
    _ = E d s := by simp [Finset.sum_ite_eq']

/-- The `(d, s)` entry of the `k`-th power of the adjacency matrix counts the
directed length-`k` walks from `s` to `d`. -/
lemma khop_adj_eq_numWalks (g : DGLGraph) (k : ℕ) (s d : Fin g.numNodes) :
    khop_adj g k d s = numWalks g k (s : ℕ) (d : ℕ) := by
  induction k generalizing s d with
  | zero =>
    simp only [khop_adj, pow_zero, Matrix.one_apply, numWalks]
    by_cases h : (s : ℕ) = (d : ℕ)
    · simp [h, (Fin.ext h).symm]
    · have h2 : ¬ d = s := fun hc => h (congrArg Fin.val hc.symm)
      simp [h, h2]
  | succ k ih =>
    simp only [numWalks]
    show (adjacency_matrix g ^ (k + 1)) d s = _
    rw [pow_succ, Matrix.mul_apply, list_range_sum_eq_fin_sum]
    refine Finset.sum_congr rfl (fun w _ => ?_)
    rw [← ih w d, mul_comm]
    rfl

/-- Boolean equality on edge pairs agrees with propositional equality. -/
lemma beq_pair (a b : ℕ × ℕ) : (a == b) = decide (a = b) := by
  by_cases h : a = b <;> simp [h]

/-- `edgeLt` is irreflexive. -/
lemma edgeLt_irrefl (a : ℕ × ℕ) : edgeLt a a = false := by
  simp [edgeLt]

/-- `edgeLt` is transitive. -/
lemma edgeLt_trans {a b c : ℕ × ℕ} (h1 : edgeLt a b = true) (h2 : edgeLt b c = true) :
    edgeLt a c = true := by
  simp only [edgeLt, Bool.or_eq_true, Bool.and_eq_true, decide_eq_true_eq] at h1 h2 ⊢
  omega

/-- `edgeLt` is total on distinct pairs. -/
lemma edgeLt_total {a b : ℕ × ℕ} (h1 : edgeLt a b = false) (h2 : a ≠ b) :
    edgeLt b a = true := by
  simp only [edgeLt, Bool.or_eq_false_iff, Bool.or_eq_true, Bool.and_eq_false_iff,
    Bool.and_eq_true, decide_eq_true_eq, decide_eq_false_iff_not] at h1 ⊢
  rw [Ne, Prod.ext_iff, not_and_or] at h2
  rcases h1 with ⟨ha, hb⟩
  rcases hb with hb | hb <;> rcases h2 with h2 | h2 <;> omega

/-- `edgeLt` implies distinctness. -/
lemma edgeLt_ne {a b : ℕ × ℕ} (h : edgeLt a b = true) : a ≠ b := by
  intro hc
  subst hc
  rw [edgeLt_irrefl] at h
  exact Bool.false_ne_true h

/-- Membership in `insEdge`. -/
lemma mem_insEdge {a x : ℕ × ℕ} : ∀ {l : List (ℕ × ℕ)},
    x ∈ insEdge a l ↔ x = a ∨ x ∈ l := by
  intro l
  induction l with
  | nil => simp [insEdge]
  | cons b l ih =>
    by_cases h1 : edgeLt a b = true
    · simp [insEdge, h1]
    · by_cases h2 : a = b
      · subst h2
        simp [insEdge, h1]
      · simp only [insEdge, if_neg h1, if_neg h2]
        simp [ih]
        tauto

/-- `insEdge` preserves strict sortedness. -/
lemma pairwise_insEdge {a : ℕ × ℕ} : ∀ {l : List (ℕ × ℕ)},
    l.Pairwise (fun x y => edgeLt x y = true) →
    (insEdge a l).Pairwise (fun x y => edgeLt x y = true) := by
  intro l
  induction l with
  | nil => simp [insEdge]
  | cons b l ih =>
    intro hp
    rw [List.pairwise_cons] at hp
    obtain ⟨hb, hl⟩ := hp
    by_cases h1 : edgeLt a b = true
    · simp only [insEdge, h1, if_true]
      rw [List.pairwise_cons]
      refine ⟨?_, ?_⟩
      · intro y hy
        rcases List.mem_cons.mp hy with rfl | hy
        · exact h1
        · exact edgeLt_trans h1 (hb y hy)
      · rw [List.pairwise_cons]
        exact ⟨hb, hl⟩
    · by_cases h2 : a = b
      · subst h2
        have heq : insEdge a (a :: l) = a :: l := by simp [insEdge, h1]
        rw [heq, List.pairwise_cons]
        exact ⟨hb, hl⟩
      · simp only [insEdge, if_neg h1, if_neg h2]
        rw [List.pairwise_cons]
        refine ⟨?_, ih hl⟩
        intro y hy
        rcases mem_insEdge.mp hy with rfl | hy
        · exact edgeLt_total (by simpa using h1) h2
        · exact hb y hy

/-- `sortedUniqueEdges` is strictly sorted. -/
lemma sortedUnique_pairwise (es : List (ℕ × ℕ)) :
    (sortedUniqueEdges es).Pairwise (fun x y => edgeLt x y = true) := by
  induction es with
  | nil => simp [sortedUniqueEdges]
  | cons e es ih => exact pairwise_insEdge ih

/-- `sortedUniqueEdges` has no duplicates: the simplified graph has no
parallel edges. -/
lemma sortedUnique_nodup (es : List (ℕ × ℕ)) : (sortedUniqueEdges es).Nodup :=
  (sortedUnique_pairwise es).imp (fun h => edgeLt_ne h)

/-- `sortedUniqueEdges` has the same members as the input. -/
lemma mem_sortedUnique {x : ℕ × ℕ} : ∀ {es : List (ℕ × ℕ)},
    x ∈ sortedUniqueEdges es ↔ x ∈ es := by
  intro es
  induction es with
  | nil => simp [sortedUniqueEdges]
  | cons e es ih =>
    show x ∈ insEdge e (sortedUniqueEdges es) ↔ _
    rw [mem_insEdge, ih]
    simp

/-- The index of a member is within bounds. -/
lemma indexOf_lt_of_mem {x : ℕ × ℕ} : ∀ {l : List (ℕ × ℕ)},
    x ∈ l → l.indexOf x < l.length := by
  intro l
  induction l with
  | nil => simp
  | cons b l ih =>
    intro h
    rw [List.indexOf_cons]
    by_cases hb : (b == x) = true
    · simp [hb]
    · have hx : x ∈ l := by
        rcases List.mem_cons.mp h with rfl | hx
        · simp at hb
        · exact hx
      simp only [hb, cond_false]
      exact Nat.succ_lt_succ (ih hx)

/-- Indexing at the index of a member returns the member. -/
lemma get_indexOf_self {x : ℕ × ℕ} : ∀ {l : List (ℕ × ℕ)} (_ : x ∈ l)
    (hlt : l.indexOf x < l.length), l.get ⟨l.indexOf x, hlt⟩ = x := by
  intro l
  induction l with
  | nil => simp
  | cons b l ih =>
    intro h hlt
    by_cases hb : (b == x) = true
    · have h0 : (b :: l).indexOf x = 0 := by rw [List.indexOf_cons, hb, cond_true]
      have hbx : b = x := by simpa [beq_pair] using hb
      simp only [List.get_eq_getElem, h0, List.getElem_cons_zero]
      exact hbx
    · have hbne : (b == x) = false := by simpa using hb
      have h1 : (b :: l).indexOf x = l.indexOf x + 1 := by
        rw [List.indexOf_cons, hbne, cond_false]
      have hx : x ∈ l := by
        rcases List.mem_cons.mp h with rfl | hx
        · simp at hbne
        · exact hx
      simp only [List.get_eq_getElem, h1, List.getElem_cons_succ]
      simpa using ih hx (indexOf_lt_of_mem hx)

/-- **C5.** `khop_graph` keeps the node count, and for every ordered pair
`(src, dst)` the multiplicity of the edge `src → dst` in `khop_graph g k`
is the `(dst, src)` entry of `A^k`, which is the number of directed length-`k`
walks from `src` to `dst` in `g`; on the 5-node bidirectional cycle of the
docstring, `khop_graph g 1` has 10 edges and `khop_graph g 3` has 40. -/
theorem khop_graph_spec :
    (∀ (g : DGLGraph) (k : ℕ),
      (khop_graph g k).numNodes = g.numNodes ∧
      ∀ s d : Fin g.numNodes,
        (khop_graph g k).edges.count ((s : ℕ), (d : ℕ)) = khop_adj g k d s ∧
        khop_adj g k d s = numWalks g k (s : ℕ) (d : ℕ)) ∧
    (khop_graph bicycle5 1).edges.length = 10 ∧
    (khop_graph bicycle5 3).edges.length = 40 := by
  refine ⟨fun g k => ⟨rfl, fun s d =>
    ⟨count_expand_matrix g.numNodes (khop_adj g k) s d, khop_adj_eq_numWalks g k s d⟩⟩,
    by decide, by decide⟩

/-- Summing, over a duplicate-free list `u` covering every element of `es`,
the multiplicities in `es` recovers the length of `es`. -/
lemma sum_count_eq_length :
    ∀ (u es : List (ℕ × ℕ)), u.Nodup → (∀ e ∈ es, e ∈ u) →
    (u.map (fun y => es.count y)).sum = es.length := by
  intro u
  induction u with
  | nil =>
    intro es _ hsub
    have hnil : es = [] :=
      List.eq_nil_iff_forall_not_mem.mpr (fun e he => by simpa using hsub e he)
    simp [hnil]
  | cons x u ih =>
    intro es hnd hsub
    rw [List.nodup_cons] at hnd
    obtain ⟨hxnot, hnd⟩ := hnd
    have k2 := List.length_eq_countP_add_countP (fun e => e == x) (l := es)
    have k3 : es.countP (fun a => decide ¬((a == x) = true)) =
        (es.filter (fun e => e ≠ x)).length := by
      rw [← List.countP_eq_length_filter]
      apply List.countP_congr
      intro a _
      by_cases h : a = x <;> simp [h]
    have k4 : ∀ y ∈ u, (es.filter (fun e => e ≠ x)).count y = es.count y := by
      intro y hy
      have hyx : y ≠ x := fun hc => hxnot (hc ▸ hy)
      exact List.count_filter (by simpa using hyx)
    have k5 : ∀ e ∈ es.filter (fun e => e ≠ x), e ∈ u := by
      intro e he
      have hmem := List.mem_of_mem_filter he
      have hne : e ≠ x := by simpa using List.of_mem_filter he
      rcases List.mem_cons.mp (hsub e hmem) with rfl | h
      · exact absurd rfl hne
      · exact h
    have hmc : (u.map (fun y => es.count y)).sum =
        (u.map (fun y => (es.filter (fun e => e ≠ x)).count y)).sum := by
      congr 1
      exact (List.map_congr_left (fun y hy => (k4 y hy).symm))
    rw [List.map_cons, List.sum_cons, hmc, ih _ hnd k5]
    have k1 : es.count x = es.countP (fun e => e == x) := rfl
    omega

/-- `setFeat` stores the value under the key. -/
lemma getFeat_setFeat_self (key : String) (v : List ℕ) :
    ∀ f : Frame, getFeat key (setFeat key v f) = some v := by
  intro f
  induction f with
  | nil => simp [setFeat, getFeat]
  | cons kv f ih =>
    by_cases h : kv.1 = key
    · simp [setFeat, getFeat, h]
    · simp [setFeat, getFeat, h, ih]

/-- `setFeat` leaves every other key unchanged. -/
lemma getFeat_setFeat_other (key k2 : String) (v : List ℕ) (hne : k2 ≠ key) :
    ∀ f : Frame, getFeat k2 (setFeat key v f) = getFeat k2 f := by
  intro f
  induction f with
  | nil => simp [setFeat, getFeat, Ne.symm hne]
  | cons kv f ih =>
    by_cases h : kv.1 = key
    · simp [setFeat, getFeat, h, hne, Ne.symm hne]
    · simp [setFeat, getFeat, h, ih]

/-- **C6.** `to_simple` coalesces, per canonical edge type, the duplicate
edges: the returned graph's edge list for each type is the duplicate-free
coalescing of the original; the per-new-edge counts sum to the original edge
count of that type; the writeback map sends every original edge to a new edge
with the same endpoints, with equal values on duplicate edges; on the
docstring's multigraph the result is the 4 edges (0,1),(1,3),(1,4),(2,2) with
counts [1,2,2,1] and writeback map [0,1,3,1,2,2]. -/
theorem to_simple_spec :
    (∀ (g : HeteroGraph) (rc wb : Option String),
      (to_simple g rc wb).1.edgesPerType =
        g.edgesPerType.map (fun es => (toSimpleEdges es).1) ∧
      ∀ key, (to_simple g (some key) wb).1.edataPerType =
        g.edgesPerType.map (fun es => [(key, (toSimpleEdges es).2.1)])) ∧
    (∀ es : List (ℕ × ℕ),
      (toSimpleEdges es).1.Nodup ∧
      (toSimpleEdges es).2.1.sum = es.length ∧
      (∀ j, (hj : j < es.length) →
        ∃ hm : (toSimpleEdges es).2.2.get ⟨j, by simpa [toSimpleEdges] using hj⟩ <
            (toSimpleEdges es).1.length,
          (toSimpleEdges es).1.get
            ⟨(toSimpleEdges es).2.2.get ⟨j, by simpa [toSimpleEdges] using hj⟩, hm⟩ =
          es.get ⟨j, hj⟩) ∧
      (∀ j1 j2, (h1 : j1 < es.length) → (h2 : j2 < es.length) →
        es.get ⟨j1, h1⟩ = es.get ⟨j2, h2⟩ →
        (toSimpleEdges es).2.2.get ⟨j1, by simpa [toSimpleEdges] using h1⟩ =
        (toSimpleEdges es).2.2.get ⟨j2, by simpa [toSimpleEdges] using h2⟩)) ∧
    (to_simple multi6 (some "weights") (some "new_eid")).1.edgesPerType =
      [[(0, 1), (1, 3), (1, 4), (2, 2)]] ∧
    (to_simple multi6 (some "weights") (some "new_eid")).1.edataPerType =
      [[("weights", [1, 2, 2, 1])]] ∧
    (to_simple multi6 (some "weights") (some "new_eid")).2.edataPerType =
      [[("new_eid", [0, 1, 3, 1, 2, 2])]] := by
  have hemap : ∀ (es : List (ℕ × ℕ)) (j : ℕ) (hj : j < es.length),
      (toSimpleEdges es).2.2.get ⟨j, by simpa [toSimpleEdges] using hj⟩ =
      (sortedUniqueEdges es).indexOf (es.get ⟨j, hj⟩) := by
    intro es j hj
    simp [toSimpleEdges, List.get_eq_getElem]
  refine ⟨?_, ?_, by decide, by decide, by decide⟩
  · intro g rc wb
    constructor
    · simp [to_simple, Function.comp]
    · intro key
      simp [to_simple, Function.comp, setFeat]
  · intro es
    refine ⟨sortedUnique_nodup es, ?_, ?_, ?_⟩
    · exact sum_count_eq_length (sortedUniqueEdges es) es (sortedUnique_nodup es)
        (fun e he => mem_sortedUnique.mpr he)
    · intro j hj
      have hmem : es.get ⟨j, hj⟩ ∈ sortedUniqueEdges es :=
        mem_sortedUnique.mpr (es.get_mem _ _)
      rw [hemap es j hj]
      exact ⟨indexOf_lt_of_mem hmem, get_indexOf_self hmem (indexOf_lt_of_mem hmem)⟩
    · intro j1 j2 h1 h2 heq
      rw [hemap es j1 h1, hemap es j2 h2, heq]

/-- Witness for C6: the writeback map of the docstring multigraph sends the
duplicate edges 1 and 3 (both `(1, 3)`) to the same new edge. -/
theorem to_simple_spec_witness :
    (toSimpleEdges [(0, 1), (1, 3), (2, 2), (1, 3), (1, 4), (1, 4)]).2.2.get
        ⟨1, by decide⟩ =
    (toSimpleEdges [(0, 1), (1, 3), (2, 2), (1, 3), (1, 4), (1, 4)]).2.2.get
        ⟨3, by decide⟩ :=
  (to_simple_spec.2.1 [(0, 1), (1, 3), (2, 2), (1, 3), (1, 4), (1, 4)]).2.2.2
    1 3 (by decide) (by decide) (by decide)

/-- **C9.** `to_simple` mutates its input: with `writeback_mapping = some key`
the input graph after the call differs from the input only in its edge
frames, where the old-to-new edge map of each canonical edge type is stored
under `key` (other keys untouched); the duplicate counts go onto the returned
graph under `return_counts`; with `writeback_mapping = none` the input is
left completely unchanged. -/
theorem to_simple_writeback_spec :
    (∀ (g : HeteroGraph) (rc : Option String) (key : String),
      (to_simple g rc (some key)).2.ntypes = g.ntypes ∧
      (to_simple g rc (some key)).2.numNodesPerType = g.numNodesPerType ∧
      (to_simple g rc (some key)).2.etypes = g.etypes ∧
      (to_simple g rc (some key)).2.edgesPerType = g.edgesPerType ∧
      (to_simple g rc (some key)).2.ndataPerType = g.ndataPerType ∧
      ((hlen : g.edataPerType.length = g.edgesPerType.length) →
        ∀ i, (hi : i < g.edataPerType.length) →
          getFeat key ((to_simple g rc (some key)).2.edataPerType.get
              ⟨i, by simp [to_simple]; omega⟩) =
            some (toSimpleEdges (g.edgesPerType.get ⟨i, by omega⟩)).2.2 ∧
          ∀ k2, k2 ≠ key →
            getFeat k2 ((to_simple g rc (some key)).2.edataPerType.get
                ⟨i, by simp [to_simple]; omega⟩) =
            getFeat k2 (g.edataPerType.get ⟨i, hi⟩))) ∧
    (∀ (g : HeteroGraph) (rc : Option String), (to_simple g rc none).2 = g) ∧
    (∀ (g : HeteroGraph) (key : String) (wb : Option String),
      (to_simple g (some key) wb).1.edataPerType =
        g.edgesPerType.map (fun es => [(key, (toSimpleEdges es).2.1)])) := by
  refine ⟨?_, fun g rc => rfl, ?_⟩
  · intro g rc key
    refine ⟨rfl, rfl, rfl, rfl, rfl, ?_⟩
    intro hlen i hi
    have hget : ∀ hb, (to_simple g rc (some key)).2.edataPerType.get ⟨i, hb⟩ =
        setFeat key (toSimpleEdges (g.edgesPerType.get ⟨i, by omega⟩)).2.2
          (g.edataPerType.get ⟨i, hi⟩) := by
      intro hb
      simp [to_simple, List.get_eq_getElem, List.getElem_zip]
    rw [hget]
    exact ⟨getFeat_setFeat_self key _ _,
      fun k2 hk2 => getFeat_setFeat_other key k2 _ hk2 _⟩
  · intro g key wb
    simp [to_simple, Function.comp, setFeat]

/-- Witness for C9: on the docstring multigraph, the writeback map lands in
the input graph's edge frame under the requested key. -/
theorem to_simple_writeback_spec_witness :
    getFeat "new_eid"
      ((to_simple multi6 (some "weights") (some "new_eid")).2.edataPerType.get
        ⟨0, by decide⟩) = some [0, 1, 3, 1, 2, 2] :=
  (((to_simple_writeback_spec.1 multi6 (some "weights") "new_eid").2.2.2.2.2
      (by decide) 0 (by decide)).1).trans (by decide)

/-- **C7** (code bug).  `in_subgraph` and `out_subgraph` do reject a bare
node-ID tensor whenever the graph has more than one node type, and succeed
(raise nothing) when the graph has exactly one node type — but the error
raised is not the intended `DGLError` of the spec's InvalidArgument class:
`DGLError` is never imported in `transform.py`, so the rejection surfaces as
`NameError`. -/
theorem subgraph_ntype_check_spec :
    (∀ (g : HeteroGraph) (t : List ℕ), 1 < g.ntypes.length →
      in_subgraph g (.tensor t) = .error dglErrorNameErr ∧
      out_subgraph g (.tensor t) = .error dglErrorNameErr) ∧
    (∀ (g : HeteroGraph) (t : List ℕ), g.ntypes.length = 1 →
      (∃ h, in_subgraph g (.tensor t) = .ok h) ∧
      (∃ h, out_subgraph g (.tensor t) = .ok h)) := by
  constructor
  · intro g t hgt
    constructor
    · simp [in_subgraph, hgt]
    · simp [out_subgraph, hgt]
  · intro g t hlen
    have hnot : ¬ 1 < g.ntypes.length := by omega
    match hnt : g.ntypes with
    | [] => rw [hnt] at hlen; simp at hlen
    | nt :: rest =>
      have hrest : rest.length = 0 := by
        rw [hnt] at hlen
        simpa using hlen
      constructor
      · exact ⟨subgraph_core g [(nt, t)] true, by simp [in_subgraph, hnt, hrest]⟩
      · exact ⟨subgraph_core g [(nt, t)] false, by simp [out_subgraph, hnt, hrest]⟩

/-- Witness for C7: the two-type user/game graph makes the rejection fail
with the `NameError`, the one-type multigraph is accepted. -/
theorem subgraph_ntype_check_spec_witness :
    (in_subgraph userGameG (.tensor [3]) = .error dglErrorNameErr) ∧
    (∃ h, in_subgraph multi6 (.tensor [3]) = .ok h) :=
  ⟨(subgraph_ntype_check_spec.1 userGameG [3] (by decide)).1,
   (subgraph_ntype_check_spec.2 multi6 [3] (by decide)).1⟩

/-- **C8** (code bug).  `compact_graphs` on a non-empty list in which some
graph's node-type list differs (in content or order) from the first graph's
does raise an error before constructing any output, with the input graphs
unchanged — but not the intended node-type-ordering `AssertionError` of the
spec's InvalidArgument class: the assertion's message expression applies `%`
to the list `ntypes`, so the mismatch surfaces as a `TypeError` raised while
the message is being built. -/
theorem compact_graphs_ntype_mismatch_spec
    (g0 : HeteroGraph) (gs : List HeteroGraph) (ap : APArg)
    (hmis : ∃ g ∈ g0 :: gs, g.ntypes ≠ g0.ntypes) :
    compact_graphs (.list (g0 :: gs)) ap = (.error compactNtypesErr, g0 :: gs) := by
  obtain ⟨g, hg, hne⟩ := hmis
  have hall : ((g0 :: gs).all (fun g => g.ntypes = g0.ntypes)) = false := by
    rw [List.all_eq_false]
    exact ⟨g, hg, by simpa using hne⟩
  show compact_run g0 gs false ap = _
  simp [compact_run, hall]

/-- Witness for C8: compacting the user/game bipartite graph together with
the homogeneous multigraph fails the node-type check with the `TypeError`. -/
theorem compact_graphs_ntype_mismatch_spec_witness :
    compact_graphs (.list [userGameG, multi6]) .none =
      (.error compactNtypesErr, [userGameG, multi6]) :=
  compact_graphs_ntype_mismatch_spec userGameG [multi6] .none
    ⟨multi6, by decide, by decide⟩

/-- **C10.** `compact_graphs` on an empty list returns an empty list without
touching the (absent) first graph and without raising; on a bare graph (not
wrapped in a list) it returns a bare compacted graph, not a list. -/
theorem compact_graphs_arg_shape_spec :
    (∀ ap, compact_graphs (.list []) ap = (.ok (.list []), [])) ∧
    (∀ g : HeteroGraph, ∃ h, compact_graphs (.single g) .none = (.ok (.single h), [g])) := by
  refine ⟨fun ap => rfl, fun g => ?_⟩
  have hall : (([g] : List HeteroGraph).all (fun x => x.ntypes = g.ntypes)) = true := by
    simp
  refine ⟨(compact_core [g] []).headD g, ?_⟩
  show compact_run g [] true .none = _
  simp [compact_run, hall, apToMap]

end DGL
